import Mathlib

/-! Verification of the COPAC correlation clustering implementation
(src/copac.py, function copac and helper _cdist).

The Python source is shallowly embedded in exact rational arithmetic:
numpy arrays become lists or index functions, machine floats become
rationals, and the two external collaborators (sklearn NearestNeighbors
and sklearn dbscan) appear only through their outputs, which are taken
as inputs of the embedded phases.  The one genuinely floating-point
phenomenon the code relies on, the NaN entries of the explained-variance
curve of a zero-variance neighborhood, is modelled explicitly with
Option: none stands for a value that is not an ordinary number, and
every numeric comparison involving it is false, as in IEEE arithmetic. -/

namespace Copac

/-- Comparison used by numpy searchsorted on the explained-variance array
of copac.py line 126.  Entries are Option rationals: none models a NaN
entry (the 0/0 of a zero-variance neighborhood); any comparison that
involves NaN is false in IEEE arithmetic. -/
def ltN : Option ℚ → Option ℚ → Bool
  | some x, some y => decide (x < y)
  | _, _ => false

/-- Loop of the binary search behind np.searchsorted(a, v, side=left):
while lo < hi, probe mid = (lo+hi)/2; if a[mid] < v move lo past mid,
else move hi down to mid; return lo.  The bracket [lo, hi) shrinks by at
least one element per iteration, so a fuel of a.length bounds the number
of iterations of the while loop; the default argument of getD is never
read because every probe satisfies mid < hi <= a.length. -/
def bisectAux (lt : α → α → Bool) (a : List α) (v : α) : ℕ → ℕ → ℕ → ℕ
  | 0, lo, _ => lo
  | fuel + 1, lo, hi =>
    if lo < hi then
      if lt (a.getD ((lo + hi) / 2) v) v then
        bisectAux lt a v fuel ((lo + hi) / 2 + 1) hi
      else
        bisectAux lt a v fuel lo ((lo + hi) / 2)
    else lo

/-- np.searchsorted(a, v, side=left): binary search over the whole array. -/
def searchsortedLeft (lt : α → α → Bool) (a : List α) (v : α) : ℕ :=
  bisectAux lt a v a.length 0 a.length

/-- np.cumsum over a rational vector. -/
def cumsum : List ℚ → List ℚ
  | [] => []
  | x :: xs => x :: (cumsum xs).map (x + ·)

/-- Line 122 of copac.py: E = np.sort(E)[::-1], ascending sort then
reversal.  np.sort is modelled by a comparison sort. -/
def sortDesc (E : List ℚ) : List ℚ :=
  (E.insertionSort (· ≤ ·)).reverse

/-- Line 125 of copac.py: explanation_portion = np.cumsum(E) / E.sum(),
taken on the already sorted spectrum E.  When the total variance E.sum()
is zero, every entry of the float division is 0/0 = NaN (the eigh
spectrum of the positive-semidefinite covariance matrix is nonnegative,
so all cumulative sums vanish together with the total); such entries are
modelled as none. -/
def explanationPortion (E : List ℚ) : List (Option ℚ) :=
  (cumsum E).map (fun c => if E.sum = 0 then none else some (c / E.sum))

/-- Lines 122-127 of copac.py: the local correlation dimension of a
point, computed from the eigh spectrum E of its neighborhood covariance
matrix: sort E descending, build the explained-variance curve, and add 1
to the left searchsorted position of alpha. -/
def lambdaP (E : List ℚ) (alpha : ℚ) : ℕ :=
  searchsortedLeft ltN (explanationPortion (sortDesc E)) (some alpha) + 1

/-- Line 130 of copac.py: E_hat = (np.arange(1, d+1) > lambda_P), the
0/1 indicator of the noise directions; zero-based position t carries the
arange value t + 1. -/
def Ehat (lambda_P : ℕ) (t : ℕ) : ℚ :=
  if lambda_P < t + 1 then 1 else 0

/-- Line 131 of copac.py, entrywise: M_hat = V @ np.diag(E_hat) @ V.T,
so M_hat[a,b] = sum over t of V[a,t] * E_hat[t] * V[b,t]. -/
def Mhat (d : ℕ) (V : ℕ → ℕ → ℚ) (e : ℕ → ℚ) (a b : ℕ) : ℚ :=
  ∑ t ∈ Finset.range d, V a t * e t * V b t

/-- Ratios of the explained-variance curve as plain rationals, meaningful
when the total variance is nonzero; used to state what the searchsorted
call computes. -/
def explRatios (E : List ℚ) : List ℚ :=
  (cumsum (sortDesc E)).map (fun c => c / E.sum)

/-- The binary search loop returns the boundary of the probe predicate:
assuming the predicate a[i] < v is monotone along the array (true on a
prefix), the result r extends the bracket invariants, everything before
r probes true and the entry at r (if any) probes false. -/
theorem bisectAux_char (lt : α → α → Bool) (a : List α) (v : α)
    (hmono : ∀ i j, i ≤ j → j < a.length →
      lt (a.getD j v) v = true → lt (a.getD i v) v = true) :
    ∀ fuel lo hi, hi ≤ a.length → lo ≤ hi → hi - lo ≤ fuel →
      (∀ i, i < lo → lt (a.getD i v) v = true) →
      (∀ i, hi ≤ i → i < a.length → lt (a.getD i v) v = false) →
      lo ≤ bisectAux lt a v fuel lo hi ∧
        bisectAux lt a v fuel lo hi ≤ hi ∧
        (∀ i, i < bisectAux lt a v fuel lo hi → lt (a.getD i v) v = true) ∧
        (bisectAux lt a v fuel lo hi < a.length →
          lt (a.getD (bisectAux lt a v fuel lo hi) v) v = false) := by
  intro fuel
  induction fuel with
  | zero =>
    intro lo hi hha hlh hfuel htrue hfalse
    have hEq : lo = hi := by omega
    subst hEq
    simp only [bisectAux]
    exact ⟨le_rfl, le_rfl, htrue, fun h => hfalse lo le_rfl h⟩
  | succ fuel ih =>
    intro lo hi hha hlh hfuel htrue hfalse
    by_cases h : lo < hi
    · cases hp : lt (a.getD ((lo + hi) / 2) v) v with
      | true =>
        have h1 : ∀ i, i < (lo + hi) / 2 + 1 → lt (a.getD i v) v = true := by
          intro i hi2
          exact hmono i ((lo + hi) / 2) (by omega) (by omega) hp
        have hrec := ih ((lo + hi) / 2 + 1) hi hha (by omega) (by omega) h1 hfalse
        simp only [bisectAux, if_pos h, hp, if_true]
        exact ⟨le_trans (by omega) hrec.1, hrec.2.1, hrec.2.2.1, hrec.2.2.2⟩
      | false =>
        have h2 : ∀ i, (lo + hi) / 2 ≤ i → i < a.length → lt (a.getD i v) v = false := by
          intro i hmi hil
          cases hq : lt (a.getD i v) v with
          | false => rfl
          | true =>
            have := hmono ((lo + hi) / 2) i hmi hil hq
            rw [hp] at this
            exact absurd this (by simp)
        have hrec := ih lo ((lo + hi) / 2) (by omega) (by omega) (by omega) htrue h2
        simp only [bisectAux, if_pos h, hp, if_false]
        exact ⟨hrec.1, le_trans hrec.2.1 (by omega), hrec.2.2.1, hrec.2.2.2⟩
    · simp only [bisectAux, if_neg h]
      exact ⟨le_rfl, by omega, htrue, fun hl => hfalse lo (by omega) hl⟩

/-- Boundary characterization of np.searchsorted(a, v, side=left). -/
theorem searchsortedLeft_char (lt : α → α → Bool) (a : List α) (v : α)
    (hmono : ∀ i j, i ≤ j → j < a.length →
      lt (a.getD j v) v = true → lt (a.getD i v) v = true) :
    searchsortedLeft lt a v ≤ a.length ∧
      (∀ i, i < searchsortedLeft lt a v → lt (a.getD i v) v = true) ∧
      (searchsortedLeft lt a v < a.length →
        lt (a.getD (searchsortedLeft lt a v) v) v = false) := by
  have h := bisectAux_char lt a v hmono a.length 0 a.length le_rfl (Nat.zero_le _)
    (by omega) (fun i hi => absurd hi (Nat.not_lt_zero i))
    (fun i h1 h2 => absurd (lt_of_le_of_lt h1 h2) (lt_irrefl _))
  exact ⟨h.2.1, h.2.2.1, h.2.2.2⟩

theorem cumsum_length (l : List ℚ) : (cumsum l).length = l.length := by
  induction l with
  | nil => rfl
  | cons x xs ih => simp [cumsum, ih]

/-- Entry i of np.cumsum is the sum of the first i+1 entries. -/
theorem cumsum_getD (l : List ℚ) : ∀ i, i < l.length →
    (cumsum l).getD i 0 = (l.take (i + 1)).sum := by
  induction l with
  | nil => intro i h; simp at h
  | cons x xs ih =>
    intro i h
    cases i with
    | zero => simp [cumsum]
    | succ n =>
      have hn : n < xs.length := by simpa using h
      have hn2 : n < (cumsum xs).length := by rw [cumsum_length]; exact hn
      have hmap : ((cumsum xs).map (x + ·)).getD n 0 = x + (cumsum xs).getD n 0 := by
        rw [List.getD_eq_getElem?_getD, List.getD_eq_getElem?_getD, List.getElem?_map,
          List.getElem?_eq_getElem hn2]
        simp
      simp only [cumsum, List.getD_cons_succ, hmap, ih n hn, List.take_succ_cons,
        List.sum_cons]

/-- A partial sum of a nonnegative vector is at most the total sum. -/
theorem take_sum_le_sum (l : List ℚ) (hnn : ∀ x ∈ l, 0 ≤ x) (k : ℕ) :
    (l.take k).sum ≤ l.sum := by
  conv_rhs => rw [← List.take_append_drop k l]
  rw [List.sum_append]
  have : 0 ≤ (l.drop k).sum :=
    List.sum_nonneg (fun x hx => hnn x (List.drop_subset k l hx))
  linarith

/-- Partial sums of a nonnegative vector are nondecreasing. -/
theorem take_sum_mono (l : List ℚ) (hnn : ∀ x ∈ l, 0 ≤ x) {a b : ℕ} (hab : a ≤ b) :
    (l.take a).sum ≤ (l.take b).sum := by
  have hb : b = a + (b - a) := by omega
  rw [hb, List.take_add, List.sum_append]
  have : 0 ≤ (((l.drop a).take (b - a)).sum) :=
    List.sum_nonneg (fun x hx =>
      hnn x (List.drop_subset a l (List.take_subset _ _ hx)))
  linarith

theorem sortDesc_perm (E : List ℚ) : List.Perm (sortDesc E) E :=
  (List.reverse_perm _).trans (List.perm_insertionSort _ _)

theorem sortDesc_sum (E : List ℚ) : (sortDesc E).sum = E.sum :=
  (sortDesc_perm E).sum_eq

theorem sortDesc_length (E : List ℚ) : (sortDesc E).length = E.length :=
  (sortDesc_perm E).length_eq

theorem sortDesc_mem {E : List ℚ} {x : ℚ} (h : x ∈ sortDesc E) : x ∈ E :=
  (sortDesc_perm E).mem_iff.mp h

theorem explRatios_length (E : List ℚ) : (explRatios E).length = E.length := by
  simp [explRatios, cumsum_length, sortDesc_length]

theorem portion_length (E : List ℚ) :
    (explanationPortion (sortDesc E)).length = E.length := by
  simp [explanationPortion, cumsum_length, sortDesc_length]

theorem explRatios_getD (E : List ℚ) (i : ℕ) (hi : i < E.length) :
    (explRatios E).getD i 0 = ((sortDesc E).take (i + 1)).sum / E.sum := by
  have hi2 : i < (cumsum (sortDesc E)).length := by
    rw [cumsum_length, sortDesc_length]; exact hi
  have hval := cumsum_getD (sortDesc E) i (by rw [sortDesc_length]; exact hi)
  rw [List.getD_eq_getElem?_getD, List.getElem?_eq_getElem hi2] at hval
  simp only [Option.getD_some] at hval
  rw [explRatios, List.getD_eq_getElem?_getD, List.getElem?_map,
    List.getElem?_eq_getElem hi2]
  simp only [Option.map_some', Option.getD_some, hval]

/-- When the total variance is nonzero the explained-variance curve is the
plain ratio vector. -/
theorem portion_eq_map_some (E : List ℚ) (hs : E.sum ≠ 0) :
    explanationPortion (sortDesc E) = (explRatios E).map some := by
  unfold explanationPortion explRatios
  simp only [sortDesc_sum, hs, if_false, List.map_map]
  rfl

theorem getD_map_some (R : List ℚ) (v : ℚ) (i : ℕ) (hi : i < R.length) :
    (R.map some).getD i (some v) = some (R.getD i 0) := by
  rw [List.getD_eq_getElem?_getD, List.getElem?_map, List.getD_eq_getElem?_getD,
    List.getElem?_eq_getElem hi]
  simp

/-- The searchsorted probe on the explained-variance curve tests whether the
cumulative ratio is still below alpha. -/
theorem probe_iff (E : List ℚ) (alpha : ℚ) (hs : E.sum ≠ 0) (i : ℕ)
    (hi : i < E.length) :
    ltN ((explanationPortion (sortDesc E)).getD i (some alpha)) (some alpha) = true ↔
      (explRatios E).getD i 0 < alpha := by
  rw [portion_eq_map_some E hs,
    getD_map_some _ _ _ (by rw [explRatios_length]; exact hi)]
  simp [ltN]

theorem explRatios_mono (E : List ℚ) (hnn : ∀ x ∈ E, 0 ≤ x) (hsum : 0 < E.sum)
    {i j : ℕ} (hij : i ≤ j) (hj : j < E.length) :
    (explRatios E).getD i 0 ≤ (explRatios E).getD j 0 := by
  rw [explRatios_getD E i (lt_of_le_of_lt hij hj), explRatios_getD E j hj]
  have hnn2 : ∀ x ∈ sortDesc E, 0 ≤ x := fun x hx => hnn x (sortDesc_mem hx)
  exact (div_le_div_iff_of_pos_right hsum).mpr (take_sum_mono _ hnn2 (by omega))

theorem explRatios_le_one (E : List ℚ) (hnn : ∀ x ∈ E, 0 ≤ x) (hsum : 0 < E.sum)
    (i : ℕ) (hi : i < E.length) : (explRatios E).getD i 0 ≤ 1 := by
  rw [explRatios_getD E i hi]
  rw [div_le_one hsum]
  have hnn2 : ∀ x ∈ sortDesc E, 0 ≤ x := fun x hx => hnn x (sortDesc_mem hx)
  calc ((sortDesc E).take (i + 1)).sum ≤ (sortDesc E).sum :=
        take_sum_le_sum _ hnn2 _
    _ = E.sum := sortDesc_sum E

theorem explRatios_last (E : List ℚ) (hs : E.sum ≠ 0) (hne : 0 < E.length) :
    (explRatios E).getD (E.length - 1) 0 = 1 := by
  rw [explRatios_getD E _ (by omega)]
  have h1 : E.length - 1 + 1 = (sortDesc E).length := by rw [sortDesc_length]; omega
  rw [h1, List.take_length, sortDesc_sum, div_self hs]

/-- On a run with nonzero total variance the probe predicate is monotone
along the curve (the curve is nondecreasing), which is the sortedness
np.searchsorted relies on. -/
theorem probe_mono (E : List ℚ) (alpha : ℚ) (hnn : ∀ x ∈ E, 0 ≤ x)
    (hsum : 0 < E.sum) :
    ∀ i j, i ≤ j → j < (explanationPortion (sortDesc E)).length →
      ltN ((explanationPortion (sortDesc E)).getD j (some alpha)) (some alpha) = true →
      ltN ((explanationPortion (sortDesc E)).getD i (some alpha)) (some alpha) = true := by
  intro i j hij hj ht
  rw [portion_length] at hj
  rw [probe_iff E alpha (ne_of_gt hsum) j hj] at ht
  rw [probe_iff E alpha (ne_of_gt hsum) i (lt_of_le_of_lt hij hj)]
  exact lt_of_le_of_lt (explRatios_mono E hnn hsum hij hj) ht

/-- np.searchsorted with the IEEE comparison returns 0 on an all-NaN
array: every probe a[mid] < v is false, so the upper bracket collapses
to 0.  This is the searchsorted behavior that the zero-variance
neighborhood of copac.py line 126 runs into. -/
theorem searchsortedLeft_replicate_none (n : ℕ) (v : ℚ) :
    searchsortedLeft ltN (List.replicate n (none : Option ℚ)) (some v) = 0 := by
  have hfalse : ∀ i,
      ltN ((List.replicate n (none : Option ℚ)).getD i (some v)) (some v) = false := by
    intro i
    rw [List.getD_eq_getElem?_getD, List.getElem?_replicate]
    by_cases hi : i < n
    · simp [hi, ltN]
    · simp [hi, ltN]
  have hmono : ∀ i j, i ≤ j → j < (List.replicate n (none : Option ℚ)).length →
      ltN ((List.replicate n (none : Option ℚ)).getD j (some v)) (some v) = true →
      ltN ((List.replicate n (none : Option ℚ)).getD i (some v)) (some v) = true := by
    intro i j _ _ ht
    rw [hfalse] at ht
    exact absurd ht (by simp)
  obtain ⟨_, hb2, _⟩ := searchsortedLeft_char ltN (List.replicate n none) (some v) hmono
  by_contra hnz
  have := hb2 0 (Nat.pos_of_ne_zero hnz)
  rw [hfalse] at this
  exact absurd this (by simp)

theorem findIdx_eq_of_probe (p : α → Bool) (d : α) :
    ∀ (l : List α) (r : ℕ), r ≤ l.length →
      (∀ i, i < r → p (l.getD i d) = false) →
      (r < l.length → p (l.getD r d) = true) →
      l.findIdx p = r := by
  intro l
  induction l with
  | nil =>
    intro r hr _ _
    have : r = 0 := by simpa using hr
    simp [this]
  | cons x xs ih =>
    intro r hr h1 h2
    cases r with
    | zero =>
      have hx : p x = true := by simpa using h2 (by simp)
      simp [List.findIdx_cons, hx]
    | succ n =>
      have hx : p x = false := by simpa using h1 0 (Nat.succ_pos n)
      have hrec := ih n (by simpa using hr)
        (fun i hi => by simpa using h1 (i + 1) (by omega))
        (fun hlen => by simpa using h2 (by simpa using hlen))
      simp [List.findIdx_cons, hx, hrec]

/-- With zero total variance the whole explained-variance curve is NaN. -/
theorem portion_all_none (E : List ℚ) (hs : E.sum = 0) :
    explanationPortion (sortDesc E) = List.replicate E.length none := by
  unfold explanationPortion
  simp only [sortDesc_sum, hs, if_pos]
  rw [List.map_const']
  simp [cumsum_length, sortDesc_length]

/-- The zero-variance policy that falls out of the code: searchsorted
over the all-NaN curve returns 0, so lambda_P = 1. -/
theorem lambdaP_of_sum_zero (E : List ℚ) (alpha : ℚ) (hs : E.sum = 0) :
    lambdaP E alpha = 1 := by
  unfold lambdaP
  rw [portion_all_none E hs, searchsortedLeft_replicate_none]

/-- With positive total variance and alpha < 1 the searchsorted position
stays below the spectrum length: the last ratio is 1 and already reaches
alpha. -/
theorem searchsorted_lt_length (E : List ℚ) (alpha : ℚ) (hnn : ∀ x ∈ E, 0 ≤ x)
    (hsum : 0 < E.sum) (halpha1 : alpha < 1) :
    searchsortedLeft ltN (explanationPortion (sortDesc E)) (some alpha) < E.length := by
  have hs : E.sum ≠ 0 := ne_of_gt hsum
  obtain ⟨hb1, hb2, hb3⟩ := searchsortedLeft_char ltN
    (explanationPortion (sortDesc E)) (some alpha) (probe_mono E alpha hnn hsum)
  have hlen0 : 0 < E.length := by
    rcases E with _ | ⟨e, es⟩
    · simp at hsum
    · simp
  rw [portion_length] at hb1
  rcases lt_or_eq_of_le hb1 with h | h
  · exact h
  · exfalso
    have hpr := hb2 (E.length - 1) (by omega)
    rw [probe_iff E alpha hs _ (by omega)] at hpr
    rw [explRatios_last E hs hlen0] at hpr
    linarith

/-- On a nonempty nonnegative spectrum with alpha < 1 the computed
correlation dimension lies in [1, d]. -/
theorem lambdaP_bounds (E : List ℚ) (alpha : ℚ) (hnn : ∀ x ∈ E, 0 ≤ x)
    (hlen : 0 < E.length) (halpha1 : alpha < 1) :
    1 ≤ lambdaP E alpha ∧ lambdaP E alpha ≤ E.length := by
  by_cases hs : E.sum = 0
  · rw [lambdaP_of_sum_zero E alpha hs]
    omega
  · have hsum : 0 < E.sum := lt_of_le_of_ne (List.sum_nonneg hnn) (Ne.symm hs)
    have h := searchsorted_lt_length E alpha hnn hsum halpha1
    have hlam : lambdaP E alpha =
        searchsortedLeft ltN (explanationPortion (sortDesc E)) (some alpha) + 1 := rfl
    omega

/-- Claim C6: for a point whose neighborhood has positive total variance,
lambda_P equals 1 plus the first position, scanning the eigenvalues in
descending order, at which the cumulative explained-variance ratio
reaches or exceeds alpha (equality counts as reached), and
1 <= lambda_P <= d where d = E.length is the number of eigenvalues of
the d x d covariance matrix. -/
theorem lambdaP_spec (E : List ℚ) (alpha : ℚ) (hnn : ∀ x ∈ E, 0 ≤ x)
    (hsum : 0 < E.sum) (halpha0 : 0 < alpha) (halpha1 : alpha < 1) :
    lambdaP E alpha = (explRatios E).findIdx (fun q => decide (alpha ≤ q)) + 1 ∧
      1 ≤ lambdaP E alpha ∧ lambdaP E alpha ≤ E.length := by
  have hs : E.sum ≠ 0 := ne_of_gt hsum
  obtain ⟨hb1, hb2, hb3⟩ := searchsortedLeft_char ltN
    (explanationPortion (sortDesc E)) (some alpha) (probe_mono E alpha hnn hsum)
  set r := searchsortedLeft ltN (explanationPortion (sortDesc E)) (some alpha)
    with hrdef
  have hlam : lambdaP E alpha = r + 1 := rfl
  rw [portion_length] at hb3
  have hrlt : r < E.length := searchsorted_lt_length E alpha hnn hsum halpha1
  refine ⟨?_, by omega, by rw [hlam]; omega⟩
  rw [hlam]
  congr 1
  refine (findIdx_eq_of_probe (fun q => decide (alpha ≤ q)) (0 : ℚ)
    (explRatios E) r ?_ ?_ ?_).symm
  · rw [explRatios_length]; exact le_of_lt hrlt
  · intro i hi
    have hlt : (explRatios E).getD i 0 < alpha :=
      (probe_iff E alpha hs i (lt_trans hi hrlt)).mp (hb2 i hi)
    simp only [decide_eq_false_iff_not, not_le]
    exact hlt
  · intro hlt2
    rw [explRatios_length] at hlt2
    have hfalse := hb3 hlt2
    have hnotlt : ¬ ((explRatios E).getD r 0 < alpha) := by
      intro hc
      have := (probe_iff E alpha hs r hlt2).mpr hc
      rw [hfalse] at this
      exact absurd this (by simp)
    simp only [decide_eq_true_eq]
    exact not_lt.mp hnotlt

/-- Witness for C6 at the spectrum E = [3, 1] with alpha = 1/2. -/
theorem lambdaP_spec_witness :
    (∀ x ∈ [(3 : ℚ), 1], 0 ≤ x) ∧ 0 < List.sum [(3 : ℚ), 1] ∧
      0 < (1/2 : ℚ) ∧ (1/2 : ℚ) < 1 ∧
      (lambdaP [3, 1] (1/2) =
          (explRatios [3, 1]).findIdx (fun q => decide ((1/2 : ℚ) ≤ q)) + 1 ∧
        1 ≤ lambdaP [3, 1] (1/2) ∧
        lambdaP [3, 1] (1/2) ≤ List.length [(3 : ℚ), 1]) :=
  ⟨by norm_num, by norm_num, by norm_num, by norm_num,
    lambdaP_spec [3, 1] (1/2) (by norm_num) (by norm_num) (by norm_num) (by norm_num)⟩

/-- Claim C9: for a fixed eigenvalue spectrum (hence fixed data and k: the
neighborhoods, covariance matrices and spectra do not depend on alpha),
raising the threshold alpha never lowers the computed correlation
dimension. -/
theorem lambdaP_monotone_alpha (E : List ℚ) (a1 a2 : ℚ) (hnn : ∀ x ∈ E, 0 ≤ x)
    (h0 : 0 < a1) (h12 : a1 ≤ a2) (h1 : a2 < 1) :
    lambdaP E a1 ≤ lambdaP E a2 := by
  by_cases hs : E.sum = 0
  · rw [lambdaP_of_sum_zero E a1 hs, lambdaP_of_sum_zero E a2 hs]
  · have hsum : 0 < E.sum := lt_of_le_of_ne (List.sum_nonneg hnn) (Ne.symm hs)
    obtain ⟨hc1, hc2, hc3⟩ := searchsortedLeft_char ltN
      (explanationPortion (sortDesc E)) (some a1) (probe_mono E a1 hnn hsum)
    obtain ⟨hd1, hd2, hd3⟩ := searchsortedLeft_char ltN
      (explanationPortion (sortDesc E)) (some a2) (probe_mono E a2 hnn hsum)
    set r1 := searchsortedLeft ltN (explanationPortion (sortDesc E)) (some a1)
    set r2 := searchsortedLeft ltN (explanationPortion (sortDesc E)) (some a2)
    suffices h : r1 ≤ r2 by
      have e1 : lambdaP E a1 = r1 + 1 := rfl
      have e2 : lambdaP E a2 = r2 + 1 := rfl
      omega
    by_contra hcon
    push_neg at hcon
    have h2len : r2 < E.length := by
      rw [portion_length] at hc1
      omega
    have ht : (explRatios E).getD r2 0 < a1 :=
      (probe_iff E a1 hs r2 h2len).mp (hc2 r2 hcon)
    have hf := hd3 (by rw [portion_length]; exact h2len)
    have hnotlt : ¬ ((explRatios E).getD r2 0 < a2) := by
      intro hcc
      have := (probe_iff E a2 hs r2 h2len).mpr hcc
      rw [hf] at this
      exact absurd this (by simp)
    exact hnotlt (lt_of_lt_of_le ht h12)

/-- Witness for C9 at E = [3, 1], alpha1 = 1/4, alpha2 = 1/2. -/
theorem lambdaP_monotone_alpha_witness :
    (∀ x ∈ [(3 : ℚ), 1], 0 ≤ x) ∧ 0 < (1/4 : ℚ) ∧ (1/4 : ℚ) ≤ 1/2 ∧
      (1/2 : ℚ) < 1 ∧ lambdaP [3, 1] (1/4) ≤ lambdaP [3, 1] (1/2) :=
  ⟨by norm_num, by norm_num, by norm_num, by norm_num,
    lambdaP_monotone_alpha [3, 1] (1/4) (1/2) (by norm_num) (by norm_num)
      (by norm_num) (by norm_num)⟩

/-- Claim C10: a zero-variance neighborhood (nonnegative eigh spectrum
with zero total) makes every entry of the explained-variance curve the
NaN 0/0, yet searchsorted over the all-NaN array returns 0, so the
analyzer still produces the defined correlation dimension lambda_P = 1;
with lambda_P a plain natural number, E_hat and M_hat = V diag(E_hat) Vt
are ordinary rational matrices and no NaN flows into the distance
matrices or labels. -/
theorem lambdaP_zero_variance (E : List ℚ) (alpha : ℚ) (hnn : ∀ x ∈ E, 0 ≤ x)
    (hs : E.sum = 0) :
    explanationPortion (sortDesc E) = List.replicate E.length none ∧
      lambdaP E alpha = 1 := by
  exact ⟨portion_all_none E hs, lambdaP_of_sum_zero E alpha hs⟩

/-- Witness for C10 at E = [0, 0] with alpha = 17/20. -/
theorem lambdaP_zero_variance_witness :
    (∀ x ∈ [(0 : ℚ), 0], 0 ≤ x) ∧ List.sum [(0 : ℚ), 0] = 0 ∧
      (explanationPortion (sortDesc [0, 0]) =
          List.replicate (List.length [(0 : ℚ), 0]) none ∧
        lambdaP [0, 0] (17/20) = 1) :=
  ⟨by norm_num, by norm_num,
    lambdaP_zero_variance [0, 0] (17/20) (by norm_num) (by norm_num)⟩

/-- Modelled from the spec, section 7 (InvalidParameter): the parameter
validity check the specification describes, with invalid meaning k < 1,
mu < 1, mu > k, eps <= 0, alpha outside (0,1), or d < 1.  The source
performs no such check: lines 97-112 of copac.py validate only the input
matrix (check_array) before starting the neighbor search, so this
definition follows the claim wording and exists only to compare the
described guard with what the code does. -/
def specInvalidParams (k mu : ℤ) (eps alpha : ℚ) (d : ℕ) : Bool :=
  decide (k < 1) || decide (mu < 1) || decide (k < mu) || decide (eps ≤ 0) ||
    decide (alpha ≤ 0) || decide (1 ≤ alpha) || decide (d < 1)

/-- Counterexample to claim C3: with the valid-looking k = 10, mu = 5,
eps = 1/2 but the invalid alpha = 2 (and d = 1), the parameters are
invalid in the sense of the claim, yet the computation is not stopped:
the analysis phase runs and produces the defined value lambda_P = 2 on
the one-eigenvalue spectrum [1] - indeed d + 1, outside the documented
range [1, d] - instead of an InvalidParameter report before any
computation. -/
theorem no_param_validation_cx :
    specInvalidParams 10 5 (1/2) 2 1 = true ∧ lambdaP [1] 2 = 2 := by
  constructor
  · norm_num [specInvalidParams]
  · norm_num [lambdaP, searchsortedLeft, explanationPortion, sortDesc, cumsum,
      bisectAux, ltN, List.insertionSort, List.orderedInsert]

/-- Amended claim C3: copac performs no parameter validation, and an
invalid alpha flows into the analysis: when alpha > 1 every point with
positive neighborhood variance receives lambda_P = d + 1, beyond the
documented range, because no cumulative ratio ever reaches alpha. -/
theorem lambdaP_alpha_above_one (E : List ℚ) (alpha : ℚ)
    (hnn : ∀ x ∈ E, 0 ≤ x) (hsum : 0 < E.sum) (ha : 1 < alpha) :
    lambdaP E alpha = E.length + 1 := by
  have hs : E.sum ≠ 0 := ne_of_gt hsum
  obtain ⟨hb1, hb2, hb3⟩ := searchsortedLeft_char ltN
    (explanationPortion (sortDesc E)) (some alpha) (probe_mono E alpha hnn hsum)
  set r := searchsortedLeft ltN (explanationPortion (sortDesc E)) (some alpha)
  have hlam : lambdaP E alpha = r + 1 := rfl
  rw [portion_length] at hb1 hb3
  have hr : r = E.length := by
    by_contra hne
    have hlt : r < E.length := by omega
    have hfalse := hb3 hlt
    have hle1 : (explRatios E).getD r 0 ≤ 1 := explRatios_le_one E hnn hsum r hlt
    have := (probe_iff E alpha hs r hlt).mpr (lt_of_le_of_lt hle1 ha)
    rw [hfalse] at this
    exact absurd this (by simp)
  rw [hlam, hr]

/-- Witness for the amended claim C3 at E = [1], alpha = 2. -/
theorem lambdaP_alpha_above_one_witness :
    (∀ x ∈ [(1 : ℚ)], 0 ≤ x) ∧ 0 < List.sum [(1 : ℚ)] ∧ (1 : ℚ) < 2 ∧
      lambdaP [1] 2 = List.length [(1 : ℚ)] + 1 :=
  ⟨by norm_num, by norm_num, by norm_num,
    lambdaP_alpha_above_one [1] 2 (by norm_num) (by norm_num) (by norm_num)⟩

/-- Helper _cdist of copac.py lines 25-35: the directional correlation
distance between P and Q (not symmetric, square root deferred).  With
the row vector v = P - Q, the numpy expression (v @ Mhat_P * v).sum()
is the quadratic form: sum over i of (sum over j of v[j] * M[j,i])
times v[i]. -/
def _cdist (d : ℕ) (P Q : ℕ → ℚ) (M : ℕ → ℕ → ℚ) : ℚ :=
  ∑ i ∈ Finset.range d, (∑ j ∈ Finset.range d, (P j - Q j) * M j i) * (P i - Q i)

/-- Row-major traversal of the strict upper triangle of an m x m index
square: the pair order produced by the two loops of copac.py lines
146-160 and by scipy squareform for a condensed distance vector. -/
def triuPairs (m : ℕ) : List (ℕ × ℕ) :=
  (List.range m).flatMap (fun i => ((List.range m).drop (i + 1)).map (fun j => (i, j)))

/-- Lines 146-152 of copac.py: the condensed vector cdist_P, one entry
per pair i < j of positions in the partition D, holding
_cdist(X[p], X[q], M_hat[p]) with p = D[i], q = D[j]; the vectorized
inner loop fills exactly the row-major upper-triangle slices. -/
def cdistPvec (d : ℕ) (X : ℕ → ℕ → ℚ) (M : ℕ → ℕ → ℕ → ℚ) (D : List ℕ) : List ℚ :=
  (triuPairs D.length).map (fun p =>
    _cdist d (X (D.getD p.1 0)) (X (D.getD p.2 0)) (M (D.getD p.1 0)))

/-- Lines 154-160 of copac.py: the tril part cdist_Q, transposed and
extracted back into the same condensed pair order, holding
_cdist(X[q], X[p], M_hat[q]) for the pair (i, j) with i < j, q = D[j],
p = D[i]. -/
def cdistQvec (d : ℕ) (X : ℕ → ℕ → ℚ) (M : ℕ → ℕ → ℕ → ℚ) (D : List ℕ) : List ℚ :=
  (triuPairs D.length).map (fun p =>
    _cdist d (X (D.getD p.2 0)) (X (D.getD p.1 0)) (M (D.getD p.2 0)))

/-- Lines 161-163 of copac.py before the square root: np.block stacks
cdist_P over cdist_Q and .max(axis=0) keeps the larger directional value
of each pair; the square root the code then applies is carried at the
statement level (exact arithmetic has no float sqrt). -/
def condensedSq (d : ℕ) (X : ℕ → ℕ → ℚ) (M : ℕ → ℕ → ℕ → ℚ) (D : List ℕ) : List ℚ :=
  List.zipWith max (cdistPvec d X M D) (cdistQvec d X M D)

/-- Position of the pair (i, j), i < j < m, in the row-major condensed
order used by scipy squareform: the first i rows contribute
(m-1) + (m-2) + ... + (m-i) entries and the pair sits at offset
j - i - 1 inside row i.  The recursion accumulates that sum; it equals
the closed squareform index m*i - i*(i+1)/2 + (j - i - 1). -/
def pairIndex : ℕ → ℕ → ℕ → ℕ
  | _, 0, j => j - 1
  | m, i + 1, j => (m - 1) + pairIndex (m - 1) i (j - 1)

/-- Line 166 of copac.py: squareform expands the condensed vector into
the full n_D x n_D distance matrix, with zero diagonal and the condensed
entry of the unordered pair placed at both (i, j) and (j, i).  This is
the (squared) matrix handed to dbscan; the code takes the square root of
the condensed vector first, which commutes with squareform away from the
diagonal and fixes the zero diagonal. -/
def dmatSq (d : ℕ) (X : ℕ → ℕ → ℚ) (M : ℕ → ℕ → ℕ → ℚ) (D : List ℕ)
    (i j : ℕ) : ℚ :=
  if i = j then 0
  else (condensedSq d X M D).getD (pairIndex D.length (min i j) (max i j)) 0

theorem zipWith_map_same (f g : α → β) (h : β → β → β) (l : List α) :
    List.zipWith h (l.map f) (l.map g) = l.map (fun x => h (f x) (g x)) := by
  induction l with
  | nil => rfl
  | cons x xs ih => simp [ih]

theorem condensedSq_eq_map (d : ℕ) (X : ℕ → ℕ → ℚ) (M : ℕ → ℕ → ℕ → ℚ)
    (D : List ℕ) :
    condensedSq d X M D = (triuPairs D.length).map (fun p =>
      max (_cdist d (X (D.getD p.1 0)) (X (D.getD p.2 0)) (M (D.getD p.1 0)))
        (_cdist d (X (D.getD p.2 0)) (X (D.getD p.1 0)) (M (D.getD p.2 0)))) := by
  unfold condensedSq cdistPvec cdistQvec
  exact zipWith_map_same _ _ _ _

/-- Peeling the first row off the upper-triangle traversal. -/
theorem triuPairs_succ (m : ℕ) :
    triuPairs (m + 1) =
      ((List.range (m + 1)).drop 1).map (fun j => ((0 : ℕ), j)) ++
        (triuPairs m).map (fun p => (p.1 + 1, p.2 + 1)) := by
  unfold triuPairs
  rw [List.range_succ_eq_map, List.flatMap_cons]
  congr 1
  rw [List.flatMap_map, List.map_flatMap]
  refine congrArg (List.flatMap (List.range m)) (funext (fun t => ?_))
  simp only [List.drop_succ_cons, List.map_drop, List.map_map, Function.comp]
  rfl

/-- The condensed index of squareform addresses exactly the pair (i, j)
in the row-major upper-triangle traversal. -/
theorem triuPairs_getElem (i : ℕ) : ∀ (m j : ℕ), i < j → j < m →
    (triuPairs m)[pairIndex m i j]? = some (i, j) := by
  induction i with
  | zero =>
    intro m j hij hjm
    rcases m with _ | m
    · omega
    rw [triuPairs_succ, pairIndex]
    rw [List.getElem?_append, if_pos (by simp; omega)]
    rw [List.getElem?_map, List.getElem?_drop]
    have h1j : 1 + (j - 1) = j := by omega
    rw [h1j, List.getElem?_range (by omega)]
    rfl
  | succ i ih =>
    intro m j hij hjm
    rcases m with _ | m
    · omega
    rw [triuPairs_succ, pairIndex]
    simp only [Nat.add_sub_cancel]
    rw [List.getElem?_append_right (by simp)]
    have hlen : (List.map (fun j => ((0 : ℕ), j)) (List.drop 1 (List.range (m + 1)))).length = m := by
      simp
    rw [hlen, Nat.add_sub_cancel_left, List.getElem?_map,
      ih m (j - 1) (by omega) (by omega)]
    have hj1 : j - 1 + 1 = j := by omega
    simp [hj1]

/-- The off-diagonal entry of the matrix handed to dbscan (before the
square root) is the larger of the two directional values of the
unordered pair. -/
theorem dmatSq_entry (d : ℕ) (X : ℕ → ℕ → ℚ) (M : ℕ → ℕ → ℕ → ℚ) (D : List ℕ)
    {i j : ℕ} (hij : i < j) (hj : j < D.length) :
    dmatSq d X M D i j =
      max (_cdist d (X (D.getD i 0)) (X (D.getD j 0)) (M (D.getD i 0)))
        (_cdist d (X (D.getD j 0)) (X (D.getD i 0)) (M (D.getD j 0))) := by
  unfold dmatSq
  rw [if_neg (by omega), min_eq_left (le_of_lt hij), max_eq_right (le_of_lt hij)]
  rw [condensedSq_eq_map, List.getD_eq_getElem?_getD, List.getElem?_map,
    triuPairs_getElem i D.length j hij hj]
  rfl

theorem dmatSq_symm (d : ℕ) (X : ℕ → ℕ → ℚ) (M : ℕ → ℕ → ℕ → ℚ) (D : List ℕ)
    (i j : ℕ) : dmatSq d X M D i j = dmatSq d X M D j i := by
  unfold dmatSq
  by_cases h : i = j
  · subst h; simp
  · rw [if_neg h, if_neg (fun hh => h hh.symm), min_comm, max_comm]

theorem dmatSq_diag (d : ℕ) (X : ℕ → ℕ → ℚ) (M : ℕ → ℕ → ℕ → ℚ) (D : List ℕ)
    (i : ℕ) : dmatSq d X M D i i = 0 := by
  simp [dmatSq]

/-- The quadratic form of _cdist under an analyzer matrix
M_hat = V diag(e) Vt diagonalizes: it is the e-weighted sum of squares of
the coordinates of P - Q in the column frame of V. -/
theorem cdist_Mhat_eq (d : ℕ) (P Q : ℕ → ℚ) (V : ℕ → ℕ → ℚ) (e : ℕ → ℚ) :
    _cdist d P Q (Mhat d V e) =
      ∑ t ∈ Finset.range d, e t *
        ((∑ j ∈ Finset.range d, (P j - Q j) * V j t) *
          (∑ j ∈ Finset.range d, (P j - Q j) * V j t)) := by
  unfold _cdist Mhat
  simp only [Finset.mul_sum, Finset.sum_mul]
  rw [Finset.sum_comm]
  conv_rhs => rw [Finset.sum_comm]
  refine Finset.sum_congr rfl (fun j hj => ?_)
  rw [Finset.sum_comm]
  refine Finset.sum_congr rfl (fun t ht => ?_)
  refine Finset.sum_congr rfl (fun i hi => ?_)
  ring

/-- Positive semidefiniteness of the analyzer matrices: with nonnegative
diagonal weights the _cdist value is a sum of nonnegative terms. -/
theorem cdist_Mhat_nonneg (d : ℕ) (P Q : ℕ → ℚ) (V : ℕ → ℕ → ℚ) (e : ℕ → ℚ)
    (he : ∀ t, 0 ≤ e t) : 0 ≤ _cdist d P Q (Mhat d V e) := by
  rw [cdist_Mhat_eq]
  refine Finset.sum_nonneg (fun t _ => ?_)
  exact mul_nonneg (he t) (mul_self_nonneg _)

theorem Ehat_nonneg (lam t : ℕ) : 0 ≤ Ehat lam t := by
  unfold Ehat
  split <;> norm_num

/-- The _cdist value written as the quadratic form of the claim:
(Q - P)t M (Q - P), for an arbitrary matrix M. -/
theorem cdist_quadratic_form (d : ℕ) (P Q : ℕ → ℚ) (M : ℕ → ℕ → ℚ) :
    _cdist d P Q M =
      ∑ a ∈ Finset.range d, ∑ b ∈ Finset.range d,
        (Q a - P a) * M a b * (Q b - P b) := by
  unfold _cdist
  simp only [Finset.sum_mul]
  rw [Finset.sum_comm]
  refine Finset.sum_congr rfl (fun a ha => Finset.sum_congr rfl (fun b hb => ?_))
  ring

/-- Each entry of the condensed max vector is nonnegative when every
point carries an analyzer matrix V diag(E_hat) Vt. -/
theorem dmatSq_nonneg (d : ℕ) (X : ℕ → ℕ → ℚ) (M : ℕ → ℕ → ℕ → ℚ)
    (V : ℕ → ℕ → ℕ → ℚ) (lam : ℕ → ℕ) (D : List ℕ)
    (HM : ∀ p, M p = Mhat d (V p) (Ehat (lam p))) (i j : ℕ) :
    0 ≤ dmatSq d X M D i j := by
  unfold dmatSq
  split
  · exact le_refl 0
  have hmem : ∀ x ∈ condensedSq d X M D, 0 ≤ x := by
    rw [condensedSq_eq_map]
    intro x hx
    obtain ⟨p, _, rfl⟩ := List.mem_map.mp hx
    refine le_max_iff.mpr (Or.inl ?_)
    rw [HM (D.getD p.1 0)]
    exact cdist_Mhat_nonneg d _ _ _ _ (Ehat_nonneg _)
  rcases Nat.lt_or_ge (pairIndex D.length (min i j) (max i j))
      (condensedSq d X M D).length with hk | hk
  · rw [List.getD_eq_getElem?_getD, List.getElem?_eq_getElem hk]
    exact hmem _ (List.getElem_mem hk)
  · rw [List.getD_eq_getElem?_getD, List.getElem?_eq_none hk]
    exact le_refl 0

/-- Claim C4: for every partition D whose per-point matrices come from
the analyzer (M_hat = V diag(E_hat) Vt with the 0/1 noise indicator),
the distance matrix handed to the density clustering provider is exactly
symmetric, exactly zero on the diagonal, and everywhere nonnegative -
both before the square root (the condensed max of the two directional
quadratic forms) and after it.  Finiteness is automatic in the exact
rational embedding: every entry is a rational number. -/
theorem dmat_valid (d : ℕ) (X : ℕ → ℕ → ℚ) (M : ℕ → ℕ → ℕ → ℚ)
    (V : ℕ → ℕ → ℕ → ℚ) (lam : ℕ → ℕ) (D : List ℕ)
    (HM : ∀ p, M p = Mhat d (V p) (Ehat (lam p))) :
    (∀ i j, dmatSq d X M D i j = dmatSq d X M D j i) ∧
      (∀ i, dmatSq d X M D i i = 0) ∧
      (∀ i j, 0 ≤ dmatSq d X M D i j) ∧
      (∀ i j, Real.sqrt (dmatSq d X M D i j) = Real.sqrt (dmatSq d X M D j i)) ∧
      (∀ i, Real.sqrt (dmatSq d X M D i i) = 0) ∧
      (∀ i j, 0 ≤ Real.sqrt (dmatSq d X M D i j)) := by
  refine ⟨fun i j => dmatSq_symm d X M D i j, fun i => dmatSq_diag d X M D i,
    fun i j => dmatSq_nonneg d X M V lam D HM i j, fun i j => ?_, fun i => ?_,
    fun i j => Real.sqrt_nonneg _⟩
  · rw [dmatSq_symm d X M D i j]
  · rw [dmatSq_diag d X M D i]
    simp [Real.sqrt_zero]

/-- Witness for C4 with d = 1, one-point partition D = [0], V = 1,
lambda = 1, so that M is literally the analyzer matrix. -/
theorem dmat_valid_witness :
    (∀ p : ℕ, (fun _ : ℕ => Mhat 1 (fun _ _ => (1 : ℚ)) (Ehat 1)) p =
        Mhat 1 ((fun _ : ℕ => fun _ _ => (1 : ℚ)) p) (Ehat ((fun _ : ℕ => 1) p))) ∧
      ((∀ i j, dmatSq 1 (fun _ _ => 0) (fun _ => Mhat 1 (fun _ _ => 1) (Ehat 1)) [0] i j =
          dmatSq 1 (fun _ _ => 0) (fun _ => Mhat 1 (fun _ _ => 1) (Ehat 1)) [0] j i) ∧
        (∀ i, dmatSq 1 (fun _ _ => 0) (fun _ => Mhat 1 (fun _ _ => 1) (Ehat 1)) [0] i i = 0) ∧
        (∀ i j, 0 ≤ dmatSq 1 (fun _ _ => 0) (fun _ => Mhat 1 (fun _ _ => 1) (Ehat 1)) [0] i j) ∧
        (∀ i j, Real.sqrt (dmatSq 1 (fun _ _ => 0) (fun _ => Mhat 1 (fun _ _ => 1) (Ehat 1)) [0] i j) =
          Real.sqrt (dmatSq 1 (fun _ _ => 0) (fun _ => Mhat 1 (fun _ _ => 1) (Ehat 1)) [0] j i)) ∧
        (∀ i, Real.sqrt (dmatSq 1 (fun _ _ => 0) (fun _ => Mhat 1 (fun _ _ => 1) (Ehat 1)) [0] i i) = 0) ∧
        (∀ i j, 0 ≤ Real.sqrt (dmatSq 1 (fun _ _ => 0) (fun _ => Mhat 1 (fun _ _ => 1) (Ehat 1)) [0] i j))) :=
  ⟨fun p => rfl,
    dmat_valid 1 (fun _ _ => 0) (fun _ => Mhat 1 (fun _ _ => 1) (Ehat 1))
      (fun _ => fun _ _ => 1) (fun _ => 1) [0] (fun p => rfl)⟩

/-- Claim C5: the directional correlation distance computed by _cdist
equals the quadratic form (Q - P)t M_hat_P (Q - P), and the entry of the
partition distance matrix for the unordered pair of positions i < j in D
is sqrt(max(cdist(P,Q), cdist(Q,P))), where each direction uses the
matrix of its own base point. -/
theorem dmat_pair (d : ℕ) (X : ℕ → ℕ → ℚ) (M : ℕ → ℕ → ℕ → ℚ) (D : List ℕ)
    (i j : ℕ) (hij : i < j) (hj : j < D.length) :
    _cdist d (X (D.getD i 0)) (X (D.getD j 0)) (M (D.getD i 0)) =
        (∑ a ∈ Finset.range d, ∑ b ∈ Finset.range d,
          (X (D.getD j 0) a - X (D.getD i 0) a) * M (D.getD i 0) a b *
            (X (D.getD j 0) b - X (D.getD i 0) b)) ∧
      dmatSq d X M D i j =
        max (_cdist d (X (D.getD i 0)) (X (D.getD j 0)) (M (D.getD i 0)))
          (_cdist d (X (D.getD j 0)) (X (D.getD i 0)) (M (D.getD j 0))) ∧
      Real.sqrt (dmatSq d X M D i j) =
        Real.sqrt ((max (_cdist d (X (D.getD i 0)) (X (D.getD j 0)) (M (D.getD i 0)))
          (_cdist d (X (D.getD j 0)) (X (D.getD i 0)) (M (D.getD j 0))) : ℚ)) := by
  have h2 := dmatSq_entry d X M D hij hj
  exact ⟨cdist_quadratic_form d _ _ _, h2, by rw [h2]⟩

/-- Witness for C5 with d = 1, D = [0, 1], X p = p, M = 1. -/
theorem dmat_pair_witness :
    0 < 1 ∧ 1 < List.length [0, 1] ∧
      (_cdist 1 ((fun p _ => (p : ℚ)) (List.getD [0, 1] 0 0))
          ((fun p _ => (p : ℚ)) (List.getD [0, 1] 1 0))
          ((fun _ _ _ => (1 : ℚ)) (List.getD [0, 1] 0 0)) =
          (∑ a ∈ Finset.range 1, ∑ b ∈ Finset.range 1,
            ((fun p _ => (p : ℚ)) (List.getD [0, 1] 1 0) a -
                (fun p _ => (p : ℚ)) (List.getD [0, 1] 0 0) a) *
              (fun _ _ _ => (1 : ℚ)) (List.getD [0, 1] 0 0) a b *
              ((fun p _ => (p : ℚ)) (List.getD [0, 1] 1 0) b -
                (fun p _ => (p : ℚ)) (List.getD [0, 1] 0 0) b)) ∧
        dmatSq 1 (fun p _ => (p : ℚ)) (fun _ _ _ => 1) [0, 1] 0 1 =
          max (_cdist 1 ((fun p _ => (p : ℚ)) (List.getD [0, 1] 0 0))
              ((fun p _ => (p : ℚ)) (List.getD [0, 1] 1 0))
              ((fun _ _ _ => (1 : ℚ)) (List.getD [0, 1] 0 0)))
            (_cdist 1 ((fun p _ => (p : ℚ)) (List.getD [0, 1] 1 0))
              ((fun p _ => (p : ℚ)) (List.getD [0, 1] 0 0))
              ((fun _ _ _ => (1 : ℚ)) (List.getD [0, 1] 1 0))) ∧
        Real.sqrt (dmatSq 1 (fun p _ => (p : ℚ)) (fun _ _ _ => 1) [0, 1] 0 1) =
          Real.sqrt ((max (_cdist 1 ((fun p _ => (p : ℚ)) (List.getD [0, 1] 0 0))
              ((fun p _ => (p : ℚ)) (List.getD [0, 1] 1 0))
              ((fun _ _ _ => (1 : ℚ)) (List.getD [0, 1] 0 0)))
            (_cdist 1 ((fun p _ => (p : ℚ)) (List.getD [0, 1] 1 0))
              ((fun p _ => (p : ℚ)) (List.getD [0, 1] 0 0))
              ((fun _ _ _ => (1 : ℚ)) (List.getD [0, 1] 1 0))) : ℚ))) :=
  ⟨Nat.one_pos, by simp,
    dmat_pair 1 (fun p _ => (p : ℚ)) (fun _ _ _ => 1) [0, 1] 0 1 Nat.one_pos (by simp)⟩

/-- Line 134 of copac.py: argsorted = np.argsort(lambda_), the point
indices sorted by correlation dimension.  np.argsort with the default
kind is an unstable comparison sort; it is modelled by a comparison
sort on the key, producing some permutation of range n that is
nondecreasing in the key - the only properties the grouping depends on
(the order inside a tie group is not specified by the source either). -/
def argsortIdx (n : ℕ) (lam : ℕ → ℕ) : List ℕ :=
  (List.range n).insertionSort (fun i j => lam i ≤ lam j)

/-- Line 135 of copac.py: edges from
np.histogram(lambda_[argsorted], bins=np.arange(1, d+2)): d unit bins
[1,2), ..., [d-1,d), [d,d+1] over the integer lambda values, the last
bin closed on the right, so bin b counts the points with lambda = b+1
and the final bin also admits lambda = d+1.  Values outside [1, d+1]
are not counted.  Counting over the sorted index list equals counting
over range n. -/
def histEdges (n d : ℕ) (lam : ℕ → ℕ) : List ℕ :=
  (List.range d).map (fun b =>
    if b + 1 = d then
      (argsortIdx n lam).countP (fun i => decide (lam i = d) || decide (lam i = d + 1))
    else
      (argsortIdx n lam).countP (fun i => decide (lam i = b + 1)))

/-- Line 136 of copac.py: Ds = np.split(argsorted, np.cumsum(edges)):
the sorted index list cut at the d cumulative bin counts, giving d
chunks (chunk k holding the points of the k-th bin) plus the final tail
beyond the last cut, which is empty whenever every lambda value landed
in a bin. -/
def mkDs (n d : ℕ) (lam : ℕ → ℕ) : List (List ℕ) :=
  ((List.range d).map (fun k =>
    ((argsortIdx n lam).drop (((histEdges n d lam).take k).sum)).take
      ((histEdges n d lam).getD k 0))) ++
    [(argsortIdx n lam).drop (histEdges n d lam).sum]

/-- Single-cell write of the numpy fancy assignment y[D] = y_D. -/
def writeVal (f : ℕ → ℤ) (i : ℕ) (v : ℤ) : ℕ → ℤ :=
  fun x => if x = i then v else f x

/-- Line 176 of copac.py, y[D] = y_D: positionwise assignment of the
remapped labels into the global label vector. -/
def writeAt (y : ℕ → ℤ) (D : List ℕ) (vals : List ℤ) : ℕ → ℤ :=
  (D.zip vals).foldl (fun f p => writeVal f p.1 p.2) y

/-- Line 177 of copac.py, used_y[D] = True. -/
def markAt (u : ℕ → Bool) (D : List ℕ) : ℕ → Bool :=
  D.foldl (fun f i => fun x => if x = i then true else f x) u

/-- One iteration of the merge loop, lines 170-177 of copac.py, given
the local labels the density clustering provider returned for the
partition: y_D = labels + max_label (numpy adds the offset to every
entry, the noise label -1 included), new_labels =
np.unique(labels[labels >= 0]).size, max_label += new_labels,
y[D] = y_D, used_y[D] = True.  The state is (y, used_y, max_label). -/
def mergeStep (st : (ℕ → ℤ) × (ℕ → Bool) × ℤ) (Dl : List ℕ × List ℤ) :
    (ℕ → ℤ) × (ℕ → Bool) × ℤ :=
  (writeAt st.1 Dl.1 (Dl.2.map (fun l => l + st.2.2)), markAt st.2.1 Dl.1,
    st.2.2 + (((Dl.2.filter (fun l => decide (0 ≤ l))).dedup).length : ℤ))

/-- Lines 99, 138-177 of copac.py: the merge fold over the partitions in
order, from y = -np.ones(n), used_y = zeros, max_label = 0.  Each
element of parts pairs a partition (list of point indices) with the
local label vector the clustering provider produced for it (-1 noise,
else 0..m-1). -/
def mergeFold (parts : List (List ℕ × List ℤ)) : (ℕ → ℤ) × (ℕ → Bool) × ℤ :=
  parts.foldl mergeStep (fun _ => -1, fun _ => false, 0)

/-- Claim C1 is violated by the code (code bug): on the partition list
[[0,1], [2]] with provider labels [0,0] and [-1] - the first partition
one cluster, the second a single noise point - line 172
(y_D = labels + max_label) adds the offset 1 to the noise label as
well, so point 2 receives global label -1 + 1 = 0 instead of the -1
the claim (and the docstring: noisy samples are given the label -1)
requires. -/
theorem merge_noise_shifted :
    (mergeFold [([0, 1], [0, 0]), ([2], [-1])]).1 2 = 0 ∧
      ¬ (mergeFold [([0, 1], [0, 0]), ([2], [-1])]).1 2 = -1 := by
  decide

/-- Claim C2 is violated by the code (code bug, same root as C1): on
partitions [[0]] and [[1]] with provider labels [0] and [-1], the first
partition writes the non-negative global id 0 at point 0 and advances
max_label to 1; the second partition then writes -1 + 1 = 0 at its
noise point 1, so the non-negative ids written by the two partitions
are both {0}: they collide, and output entry 0 is not globally unique,
against the claimed invariant. -/
theorem merge_global_id_collision :
    (mergeFold [([0], [0]), ([1], [-1])]).1 0 = 0 ∧
      (mergeFold [([0], [0]), ([1], [-1])]).1 1 = 0 ∧
      (mergeFold [([0], [0]), ([1], [-1])]).2.2 = 1 := by
  decide

theorem argsort_perm (n : ℕ) (lam : ℕ → ℕ) :
    List.Perm (argsortIdx n lam) (List.range n) :=
  List.perm_insertionSort _ _

theorem argsort_mem (n : ℕ) (lam : ℕ → ℕ) (i : ℕ) :
    i ∈ argsortIdx n lam ↔ i < n := by
  rw [(argsort_perm n lam).mem_iff, List.mem_range]

theorem argsort_length (n : ℕ) (lam : ℕ → ℕ) : (argsortIdx n lam).length = n := by
  rw [(argsort_perm n lam).length_eq, List.length_range]

theorem argsort_sorted (n : ℕ) (lam : ℕ → ℕ) :
    List.Pairwise (fun i j => lam i ≤ lam j) (argsortIdx n lam) := by
  haveI : IsTotal ℕ (fun i j => lam i ≤ lam j) :=
    ⟨fun a b => Nat.le_total (lam a) (lam b)⟩
  haveI : IsTrans ℕ (fun i j => lam i ≤ lam j) :=
    ⟨fun a b c hab hbc => Nat.le_trans hab hbc⟩
  exact List.sorted_insertionSort _ _

/-- In a list sorted by a key, a predicate that is closed downward along
the key holds exactly on a prefix: its filter is its takeWhile. -/
theorem sorted_filter_eq_takeWhile {α : Type _} {r : α → α → Prop} (p : α → Bool) :
    ∀ l : List α, List.Pairwise r l →
      (∀ a b, a ∈ l → b ∈ l → r a b → p b = true → p a = true) →
      l.filter p = l.takeWhile p := by
  intro l
  induction l with
  | nil => intro _ _; rfl
  | cons x xs ih =>
    intro hp hcl
    rw [List.pairwise_cons] at hp
    cases hpx : p x with
    | true =>
      simp only [List.filter_cons, List.takeWhile_cons, hpx, if_true]
      rw [ih hp.2 (fun a b ha hb hr hpb =>
        hcl a b (List.mem_cons_of_mem x ha) (List.mem_cons_of_mem x hb) hr hpb)]
    | false =>
      simp only [List.filter_cons, List.takeWhile_cons, hpx, Bool.false_eq_true,
        if_false]
      rw [List.filter_eq_nil_iff]
      intro a ha hpa
      have hcontra : p x = true :=
        hcl x a (List.mem_cons_self x xs) (List.mem_cons_of_mem x ha)
          (hp.1 a ha) (by simpa using hpa)
      rw [hpx] at hcontra
      exact Bool.false_ne_true hcontra

theorem drop_takeWhile_length (p : α → Bool) :
    ∀ l : List α, l.drop (l.takeWhile p).length = l.dropWhile p := by
  intro l
  induction l with
  | nil => rfl
  | cons x xs ih =>
    cases hpx : p x with
    | true => simp [List.takeWhile_cons, List.dropWhile_cons, hpx, ih]
    | false => simp [List.takeWhile_cons, List.dropWhile_cons, hpx]

theorem take_takeWhile_length (p : α → Bool) :
    ∀ l : List α, l.take (l.takeWhile p).length = l.takeWhile p := by
  intro l
  induction l with
  | nil => rfl
  | cons x xs ih =>
    cases hpx : p x with
    | true => simp [List.takeWhile_cons, hpx, ih]
    | false => simp [List.takeWhile_cons, hpx]

/-- After dropping the downward-closed prefix of a sorted list, the
predicate fails everywhere. -/
theorem mem_dropWhile_false {α : Type _} {r : α → α → Prop} (p : α → Bool) :
    ∀ l : List α, List.Pairwise r l →
      (∀ a b, a ∈ l → b ∈ l → r a b → p b = true → p a = true) →
      ∀ x ∈ l.dropWhile p, p x = false := by
  intro l
  induction l with
  | nil => intro _ _ x hx; simp at hx
  | cons a as ih =>
    intro hp hcl
    rw [List.pairwise_cons] at hp
    cases hpa : p a with
    | true =>
      simp only [List.dropWhile_cons, hpa, if_true]
      exact ih hp.2 (fun u w hu hw hr hpw =>
        hcl u w (List.mem_cons_of_mem a hu) (List.mem_cons_of_mem a hw) hr hpw)
    | false =>
      simp only [List.dropWhile_cons, hpa, if_false]
      intro x hx
      rcases List.mem_cons.mp hx with rfl | hx2
      · exact hpa
      · cases hq : p x with
        | false => rfl
        | true =>
          have hcontra := hcl a x (List.mem_cons_self a as)
            (List.mem_cons_of_mem a hx2) (hp.1 x hx2) hq
          rw [hpa] at hcontra
          exact absurd hcontra (by simp)

/-- Counting below m+1 splits into counting below m and counting m. -/
theorem countP_nat_split (f : ℕ → ℕ) (m : ℕ) :
    ∀ l : List ℕ, l.countP (fun i => decide (f i < m + 1)) =
      l.countP (fun i => decide (f i < m)) + l.countP (fun i => decide (f i = m)) := by
  intro l
  induction l with
  | nil => simp
  | cons a l ih =>
    simp only [List.countP_cons, ih]
    by_cases h1 : f a < m
    · have h2 : ¬ f a = m := by omega
      have h3 : f a < m + 1 := by omega
      simp [h1, h2, h3]
      omega
    · by_cases h2 : f a = m
      · have h3 : f a < m + 1 := by omega
        simp [h1, h2, h3]
        omega
      · have h3 : ¬ f a < m + 1 := by omega
        simp [h1, h2, h3]

theorem take_sum_succ_nat (l : List ℕ) (k : ℕ) (hk : k < l.length) :
    (l.take (k + 1)).sum = (l.take k).sum + l.getD k 0 := by
  rw [List.take_succ, List.sum_append, List.getElem?_eq_getElem hk]
  simp [List.getD_eq_getElem?_getD, List.getElem?_eq_getElem hk]

/-- The central block property of a list sorted by an integer key: drop
the elements with key below v, take as many as have key v, and the
block obtained is exactly the sublist of key v. -/
theorem sorted_block (lam : ℕ → ℕ) (L : List ℕ)
    (hs : List.Pairwise (fun a b => lam a ≤ lam b) L) (v : ℕ) :
    (L.drop (L.countP (fun i => decide (lam i < v)))).take
        (L.countP (fun i => decide (lam i = v))) =
      L.filter (fun i => decide (lam i = v)) := by
  set p : ℕ → Bool := fun i => decide (lam i < v) with hp
  set q : ℕ → Bool := fun i => decide (lam i = v) with hq
  have hclp : ∀ a b, a ∈ L → b ∈ L → lam a ≤ lam b → p b = true → p a = true := by
    intro a b _ _ hab hpb
    simp only [hp, decide_eq_true_eq] at hpb ⊢
    omega
  have h1 : L.filter p = L.takeWhile p := sorted_filter_eq_takeWhile p L hs hclp
  have h2 : L.countP p = (L.takeWhile p).length := by
    rw [List.countP_eq_length_filter, h1]
  have h3 : L.drop (L.countP p) = L.dropWhile p := by
    rw [h2, drop_takeWhile_length]
  have hMsub : List.Sublist (L.dropWhile p) L := List.dropWhile_sublist p
  have hMpair : List.Pairwise (fun a b => lam a ≤ lam b) (L.dropWhile p) :=
    List.Pairwise.sublist hMsub hs
  have hMlow : ∀ x ∈ L.dropWhile p, p x = false := mem_dropWhile_false p L hs hclp
  have hclq : ∀ a b, a ∈ L.dropWhile p → b ∈ L.dropWhile p →
      lam a ≤ lam b → q b = true → q a = true := by
    intro a b ha hb hab hqb
    have hpa := hMlow a ha
    simp only [hp, decide_eq_false_iff_not, not_lt] at hpa
    simp only [hq, decide_eq_true_eq] at hqb ⊢
    omega
  have hLsplit : L.takeWhile p ++ L.dropWhile p = L := List.takeWhile_append_dropWhile p L
  have htwq : ∀ a ∈ L.takeWhile p, ¬ q a = true := by
    intro a ha hqa
    have hpa := List.mem_takeWhile_imp ha
    simp only [hp, decide_eq_true_eq] at hpa
    simp only [hq, decide_eq_true_eq] at hqa
    omega
  have h4 : (L.dropWhile p).filter q = (L.dropWhile p).takeWhile q :=
    sorted_filter_eq_takeWhile q (L.dropWhile p) hMpair hclq
  have h5 : L.countP q = (L.dropWhile p).countP q := by
    conv_lhs => rw [← hLsplit]
    rw [List.countP_append]
    have hzero : (L.takeWhile p).countP q = 0 := List.countP_eq_zero.mpr htwq
    omega
  have h6 : (L.dropWhile p).countP q = ((L.dropWhile p).takeWhile q).length := by
    rw [List.countP_eq_length_filter, h4]
  rw [h3, h5, h6, take_takeWhile_length, ← h4]
  conv_rhs => rw [← hLsplit]
  rw [List.filter_append]
  have hnil : (L.takeWhile p).filter q = [] := List.filter_eq_nil_iff.mpr htwq
  rw [hnil, List.nil_append]

/-- Bin k of the histogram counts the points of correlation dimension
k + 1, once every lambda value lies in [1, d] (the closed right edge of
the last bin admits d + 1, which cannot occur then). -/
theorem histEdges_getD (n d : ℕ) (lam : ℕ → ℕ)
    (hlam : ∀ i, i < n → 1 ≤ lam i ∧ lam i ≤ d) (k : ℕ) (hk : k < d) :
    (histEdges n d lam).getD k 0 =
      (argsortIdx n lam).countP (fun i => decide (lam i = k + 1)) := by
  unfold histEdges
  rw [List.getD_eq_getElem?_getD, List.getElem?_map, List.getElem?_range hk]
  simp only [Option.map_some', Option.getD_some]
  by_cases hkd : k + 1 = d
  · subst hkd
    rw [if_pos rfl]
    apply List.countP_congr
    intro a ha
    have han : a < n := (argsort_mem n lam a).mp ha
    have hb := hlam a han
    have hne : ¬ lam a = k + 1 + 1 := by omega
    simp [hne]
  · rw [if_neg hkd]

/-- The cumulative bin counts are the counts of smaller lambda values. -/
theorem cum_countP (n d : ℕ) (lam : ℕ → ℕ)
    (hlam : ∀ i, i < n → 1 ≤ lam i ∧ lam i ≤ d) :
    ∀ k, k ≤ d → ((histEdges n d lam).take k).sum =
      (argsortIdx n lam).countP (fun i => decide (lam i < k + 1)) := by
  intro k
  induction k with
  | zero =>
    intro _
    simp only [List.take_zero, List.sum_nil]
    symm
    rw [List.countP_eq_zero]
    intro a ha
    have hb := hlam a ((argsort_mem n lam a).mp ha)
    simp only [decide_eq_true_eq]
    omega
  | succ k ih =>
    intro hk1
    have hk : k < d := by omega
    have hlen : k < (histEdges n d lam).length := by
      unfold histEdges
      simp [hk]
    rw [take_sum_succ_nat _ k hlen, ih (by omega), histEdges_getD n d lam hlam k hk,
      countP_nat_split lam (k + 1)]

theorem histEdges_length (n d : ℕ) (lam : ℕ → ℕ) :
    (histEdges n d lam).length = d := by
  unfold histEdges
  simp

/-- With every lambda value in [1, d], the final split chunk beyond the
last cumulative count is empty: the cuts exhaust the sorted array. -/
theorem mkDs_tail_nil (n d : ℕ) (lam : ℕ → ℕ)
    (hlam : ∀ i, i < n → 1 ≤ lam i ∧ lam i ≤ d) :
    (argsortIdx n lam).drop (histEdges n d lam).sum = [] := by
  have hsum : (histEdges n d lam).sum = ((histEdges n d lam).take d).sum := by
    rw [List.take_of_length_le (le_of_eq (histEdges_length n d lam))]
  rw [hsum, cum_countP n d lam hlam d le_rfl]
  have hall : (argsortIdx n lam).countP (fun i => decide (lam i < d + 1)) =
      (argsortIdx n lam).length := by
    rw [List.countP_eq_length]
    intro a ha
    have hb := hlam a ((argsort_mem n lam a).mp ha)
    simp only [decide_eq_true_eq]
    omega
  rw [hall, List.drop_length]

theorem mkDs_length (n d : ℕ) (lam : ℕ → ℕ) : (mkDs n d lam).length = d + 1 := by
  unfold mkDs
  simp

/-- Chunk k of the partitioner is exactly the set of sorted indices of
correlation dimension k + 1. -/
theorem mkDs_chunk (n d : ℕ) (lam : ℕ → ℕ)
    (hlam : ∀ i, i < n → 1 ≤ lam i ∧ lam i ≤ d) (k : ℕ) (hk : k < d) :
    (mkDs n d lam).getD k [] =
      (argsortIdx n lam).filter (fun i => decide (lam i = k + 1)) := by
  unfold mkDs
  rw [List.getD_eq_getElem?_getD, List.getElem?_append, if_pos (by simp [hk])]
  rw [List.getElem?_map, List.getElem?_range hk]
  simp only [Option.map_some', Option.getD_some]
  rw [cum_countP n d lam hlam k (le_of_lt hk), histEdges_getD n d lam hlam k hk]
  exact sorted_block lam (argsortIdx n lam) (argsort_sorted n lam) (k + 1)

theorem mkDs_last (n d : ℕ) (lam : ℕ → ℕ)
    (hlam : ∀ i, i < n → 1 ≤ lam i ∧ lam i ≤ d) :
    (mkDs n d lam).getD d [] = [] := by
  unfold mkDs
  rw [List.getD_eq_getElem?_getD, List.getElem?_append_right (by simp)]
  simp only [List.length_map, List.length_range, Nat.sub_self,
    List.getElem?_cons_zero, Option.getD_some]
  exact mkDs_tail_nil n d lam hlam

theorem mkDs_getD_of_ge (n d : ℕ) (lam : ℕ → ℕ) (k : ℕ) (hk : d + 1 ≤ k) :
    (mkDs n d lam).getD k [] = [] := by
  rw [List.getD_eq_getElem?_getD, List.getElem?_eq_none (by rw [mkDs_length]; exact hk)]
  rfl

/-- The membership characterization of the partitioner chunks. -/
theorem mkDs_mem_iff (n d : ℕ) (lam : ℕ → ℕ)
    (hlam : ∀ i, i < n → 1 ≤ lam i ∧ lam i ≤ d) (k : ℕ) (hk : k < d) (i : ℕ) :
    i ∈ (mkDs n d lam).getD k [] ↔ i < n ∧ lam i = k + 1 := by
  rw [mkDs_chunk n d lam hlam k hk, List.mem_filter, argsort_mem]
  simp only [decide_eq_true_eq]

/-- Every valid index lies in a chunk of the partitioner. -/
theorem mkDs_covers (n d : ℕ) (lam : ℕ → ℕ)
    (hlam : ∀ i, i < n → 1 ≤ lam i ∧ lam i ≤ d) (i : ℕ) (hi : i < n) :
    ∃ D ∈ mkDs n d lam, i ∈ D := by
  have hb := hlam i hi
  have hk : lam i - 1 < d := by omega
  refine ⟨(mkDs n d lam).getD (lam i - 1) [], ?_, ?_⟩
  · have hlen : lam i - 1 < (mkDs n d lam).length := by rw [mkDs_length]; omega
    rw [List.getD_eq_getElem?_getD, List.getElem?_eq_getElem hlen]
    exact List.getElem_mem hlen
  · rw [mkDs_mem_iff n d lam hlam _ hk i]
    exact ⟨hi, by omega⟩

/-- Claim C7: with every computed correlation dimension in [1, d] (which
holds for every valid run, see C6 and C10), the groups the partitioner
hands the orchestrator - the chunks of the split, traversed in list
order - are exactly the lambda level sets in ascending order of lambda
(chunk k holds precisely the indices of dimension k+1, and the trailing
split remainder is empty), they are pairwise disjoint, and their union
is the full index set {0,...,n-1}. -/
theorem partition_correct (n d : ℕ) (lam : ℕ → ℕ)
    (hlam : ∀ i, i < n → 1 ≤ lam i ∧ lam i ≤ d) :
    (∀ k, k < d → ∀ i, i ∈ (mkDs n d lam).getD k [] ↔ i < n ∧ lam i = k + 1) ∧
      (mkDs n d lam).getD d [] = [] ∧
      (∀ k1 k2, k1 < k2 → ∀ i, i ∈ (mkDs n d lam).getD k1 [] →
        i ∉ (mkDs n d lam).getD k2 []) ∧
      (∀ i, i < n ↔ ∃ D ∈ mkDs n d lam, i ∈ D) := by
  refine ⟨fun k hk i => mkDs_mem_iff n d lam hlam k hk i, mkDs_last n d lam hlam,
    ?_, ?_⟩
  · intro k1 k2 hk12 i h1 h2
    by_cases hx1 : k1 < d
    · rw [mkDs_mem_iff n d lam hlam k1 hx1 i] at h1
      by_cases hx2 : k2 < d
      · rw [mkDs_mem_iff n d lam hlam k2 hx2 i] at h2
        omega
      · by_cases hx3 : k2 = d
        · rw [hx3, mkDs_last n d lam hlam] at h2
          simp at h2
        · rw [mkDs_getD_of_ge n d lam k2 (by omega)] at h2
          simp at h2
    · by_cases hx3 : k1 = d
      · rw [hx3, mkDs_last n d lam hlam] at h1
        simp at h1
      · rw [mkDs_getD_of_ge n d lam k1 (by omega)] at h1
        simp at h1
  · intro i
    constructor
    · exact fun hi => mkDs_covers n d lam hlam i hi
    · rintro ⟨D, hD, hiD⟩
      unfold mkDs at hD
      rcases List.mem_append.mp hD with hD1 | hD2
      · obtain ⟨k, hkr, rfl⟩ := List.mem_map.mp hD1
        have hk : k < d := List.mem_range.mp hkr
        have hchunk := mkDs_chunk n d lam hlam k hk
        unfold mkDs at hchunk
        rw [List.getD_eq_getElem?_getD, List.getElem?_append,
          if_pos (by simp [hk]), List.getElem?_map, List.getElem?_range hk] at hchunk
        simp only [Option.map_some', Option.getD_some] at hchunk
        rw [hchunk] at hiD
        have := (List.mem_filter.mp hiD).1
        exact (argsort_mem n lam i).mp this
      · rw [List.mem_singleton.mp hD2, mkDs_tail_nil n d lam hlam] at hiD
        simp at hiD

/-- Witness for C7 with n = 2, d = 1, lambda constant 1. -/
theorem partition_correct_witness :
    (∀ i, i < 2 → 1 ≤ (fun _ : ℕ => 1) i ∧ (fun _ : ℕ => 1) i ≤ 1) ∧
      ((∀ k, k < 1 → ∀ i, i ∈ (mkDs 2 1 (fun _ => 1)).getD k [] ↔
          i < 2 ∧ (fun _ : ℕ => 1) i = k + 1) ∧
        (mkDs 2 1 (fun _ => 1)).getD 1 [] = [] ∧
        (∀ k1 k2, k1 < k2 → ∀ i, i ∈ (mkDs 2 1 (fun _ => 1)).getD k1 [] →
          i ∉ (mkDs 2 1 (fun _ => 1)).getD k2 []) ∧
        (∀ i, i < 2 ↔ ∃ D ∈ mkDs 2 1 (fun _ => 1), i ∈ D)) :=
  ⟨fun i _ => ⟨le_rfl, le_rfl⟩,
    partition_correct 2 1 (fun _ => 1) (fun i _ => ⟨le_rfl, le_rfl⟩)⟩

theorem markAt_eq_true_of_eq_true {u : ℕ → Bool} {i : ℕ} (h : u i = true)
    (D : List ℕ) : markAt u D i = true := by
  induction D generalizing u with
  | nil => exact h
  | cons a D ih =>
    show markAt (fun x => if x = a then true else u x) D i = true
    apply ih
    by_cases hia : i = a <;> simp [hia, h]

theorem markAt_mem {u : ℕ → Bool} {i : ℕ} (D : List ℕ) (h : i ∈ D) :
    markAt u D i = true := by
  induction D generalizing u with
  | nil => simp at h
  | cons a D ih =>
    show markAt (fun x => if x = a then true else u x) D i = true
    rcases List.mem_cons.mp h with rfl | h2
    · exact markAt_eq_true_of_eq_true (by simp) D
    · exact ih h2

theorem mergeSteps_used_mono (parts : List (List ℕ × List ℤ)) :
    ∀ st : (ℕ → ℤ) × (ℕ → Bool) × ℤ, ∀ i, st.2.1 i = true →
      (parts.foldl mergeStep st).2.1 i = true := by
  induction parts with
  | nil => intro st i h; exact h
  | cons P ps ih =>
    intro st i h
    show (ps.foldl mergeStep (mergeStep st P)).2.1 i = true
    exact ih _ i (markAt_eq_true_of_eq_true h P.1)

theorem mergeSteps_used_of_mem (parts : List (List ℕ × List ℤ)) :
    ∀ st : (ℕ → ℤ) × (ℕ → Bool) × ℤ, ∀ (D : List ℕ) (l : List ℤ) (i : ℕ),
      (D, l) ∈ parts → i ∈ D → (parts.foldl mergeStep st).2.1 i = true := by
  induction parts with
  | nil => intro st D l i h _; simp at h
  | cons P ps ih =>
    intro st D l i hmem hiD
    rcases List.mem_cons.mp hmem with heq | h2
    · show (ps.foldl mergeStep (mergeStep st P)).2.1 i = true
      apply mergeSteps_used_mono
      rw [← heq]
      exact markAt_mem D hiD
    · exact ih _ D l i h2 hiD

/-- Claim C8: on a valid run - every point carrying a nonnegative eigh
spectrum of the common length d >= 1, and alpha < 1 - the computed
correlation dimensions all lie in [1, d] (positive variance via the
explained-variance search, zero variance via the NaN policy), so every
index below n lies in the chunk of its dimension, the merge loop marks
it used when that chunk is processed, and marks are never cleared:
after the fold used_y is true at every index and the completeness
assertion of line 178 cannot fire, whatever local labels the provider
returned per partition. -/
theorem merge_no_sentinel (n d : ℕ) (Es : ℕ → List ℚ) (alpha : ℚ)
    (labs : List ℕ → List ℤ)
    (hE : ∀ i, i < n → (Es i).length = d ∧ ∀ x ∈ Es i, 0 ≤ x)
    (hd : 0 < d) (halpha1 : alpha < 1) (i : ℕ) (hi : i < n) :
    (mergeFold ((mkDs n d (fun j => lambdaP (Es j) alpha)).map
      (fun D => (D, labs D)))).2.1 i = true := by
  have hlam : ∀ j, j < n →
      1 ≤ lambdaP (Es j) alpha ∧ lambdaP (Es j) alpha ≤ d := by
    intro j hj
    obtain ⟨hlen, hnn⟩ := hE j hj
    have hb := lambdaP_bounds (Es j) alpha hnn (by omega) halpha1
    omega
  obtain ⟨D, hD, hiD⟩ := mkDs_covers n d _ hlam i hi
  exact mergeSteps_used_of_mem _ _ D (labs D) i
    (List.mem_map.mpr ⟨D, hD, rfl⟩) hiD

/-- Witness for C8 with n = 1, d = 1, spectrum [1] for the single point,
alpha = 1/2, empty provider labels, at index 0. -/
theorem merge_no_sentinel_witness :
    (∀ i, i < 1 → ((fun _ : ℕ => [(1 : ℚ)]) i).length = 1 ∧
        ∀ x ∈ (fun _ : ℕ => [(1 : ℚ)]) i, 0 ≤ x) ∧
      0 < 1 ∧ (1/2 : ℚ) < 1 ∧ 0 < 1 ∧
      (mergeFold ((mkDs 1 1 (fun j => lambdaP ((fun _ : ℕ => [(1 : ℚ)]) j) (1/2))).map
        (fun D => (D, (fun _ : List ℕ => ([] : List ℤ)) D)))).2.1 0 = true :=
  ⟨fun i _ => ⟨rfl, by norm_num⟩, Nat.one_pos, by norm_num, Nat.one_pos,
    merge_no_sentinel 1 1 (fun _ => [(1 : ℚ)]) (1/2) (fun _ => [])
      (fun i _ => ⟨rfl, by norm_num⟩) Nat.one_pos (by norm_num) 0 Nat.one_pos⟩

end Copac
